import Mathlib

/-!
Verification of the CellGuardAI battery-analytics pipeline
(`bms_features.py`, the prediction section of `app.py`, and `live_simulator.py`)
against its natural-language specification.

The embedding is a shallow one:

* a pandas cell value is `Val`: a rational number (`Val.num`), a string
  (`Val.str`), or a missing value (`Val.na`, covering both `NaN` and `NaT`);
* a DataFrame is a `Frame`: an ordered list of named columns;
* machine floats are modelled as exact rationals; division is modelled by
  `vDiv`, which returns `Val.na` when the denominator is zero.  (IEEE floats
  give `NaN` for `0/0` — the only zero-denominator case the pipeline's
  spread normalisation can reach, since the numerator is bounded by the
  denominator there — and `±inf` for `x/0`, `x ≠ 0`; the latter is also
  modelled as missing, which no claim exercises.)
* datetimes are modelled as rational seconds since 2025-01-01 (a constant
  shift of the Unix encoding, see `civilSeconds`).
-/

inductive Val where
  | num (q : ℚ)
  | str (s : String)
  | na
deriving DecidableEq, Repr

abbrev Col := List Val

/-- A DataFrame: ordered named columns (insertion order = pandas column order). -/
abbrev Frame := List (String × Col)

def isNa : Val → Bool
  | Val.na => true
  | _ => false

def colNames (df : Frame) : List String := df.map Prod.fst

/-- `len(df)`: the number of rows (length of the columns; pandas frames are rectangular). -/
def nrowsF : Frame → Nat
  | [] => 0
  | (_, c) :: _ => c.length

/-- `c in df.columns`. -/
def hasCol : Frame → String → Bool
  | [], _ => false
  | (n, _) :: rest, c => if n = c then true else hasCol rest c

/-- `df[c]` (first column of that name, pandas' lookup order). -/
def colGet : Frame → String → Option Col
  | [], _ => none
  | (n, col) :: rest, c => if n = c then some col else colGet rest c

/-- `df[c] = vs`: replace the column in place if present, else append it at the end. -/
def setCol : Frame → String → Col → Frame
  | [], c, vs => [(c, vs)]
  | (n, old) :: rest, c, vs =>
      if n = c then (n, vs) :: rest else (n, old) :: setCol rest c vs

/-- The value of column `c` at row `i`. -/
def valAt (df : Frame) (c : String) (i : Nat) : Option Val :=
  (colGet df c).bind (fun col => col.get? i)

/-! ### Numeric parsing (`pd.to_numeric(..., errors="coerce")`, restricted to
plain decimal literals; pandas accepts a few more spellings, none of which the
claims exercise). -/

def natOfDigits (s : List Char) : Nat :=
  s.foldl (fun n c => n * 10 + (c.toNat - 48)) 0

def parseRat (s : String) : Option ℚ :=
  let core : String → Option ℚ := fun t =>
    match t.splitOn "." with
    | [a] =>
        if a.length ≠ 0 ∧ a.toList.all Char.isDigit then
          some (natOfDigits a.toList)
        else none
    | [a, b] =>
        if a.length ≠ 0 ∧ b.length ≠ 0 ∧ a.toList.all Char.isDigit ∧
            b.toList.all Char.isDigit then
          some ((natOfDigits a.toList : ℚ) + (natOfDigits b.toList : ℚ) / (10 : ℚ) ^ b.length)
        else none
    | _ => none
  if s.startsWith "-" then (core (s.drop 1)).map (fun q => -q) else core s

/-! ### Datetime parsing (`pd.to_datetime(..., errors="coerce")`, restricted to
the ISO format `YYYY-MM-DD HH:MM:SS` for years 2000–2099 — the format and range
the pipeline's epoch and the claims live in; anything else coerces to `NaT`). -/

def parseNatLen (s : String) (k : Nat) : Option Nat :=
  if s.length = k ∧ s.toList.all Char.isDigit then some (natOfDigits s.toList) else none

/-- Days before month `m` in a non-leap year. -/
def monthCum : Nat → Nat
  | 1 => 0 | 2 => 31 | 3 => 59 | 4 => 90 | 5 => 120 | 6 => 151
  | 7 => 181 | 8 => 212 | 9 => 243 | 10 => 273 | 11 => 304 | 12 => 334
  | _ => 0

def isLeapYear (y : Nat) : Bool := y % 4 == 0  -- exact for 2000–2099

def monthLen (leap : Bool) : Nat → Nat
  | 1 => 31 | 2 => if leap then 29 else 28 | 3 => 31 | 4 => 30 | 5 => 31 | 6 => 30
  | 7 => 31 | 8 => 31 | 9 => 30 | 10 => 31 | 11 => 30 | 12 => 31
  | _ => 0

/-- A civil datetime (2000 ≤ y ≤ 2099) as seconds since 2025-01-01 00:00:00.
pandas stores Unix-based instants; this encoding is that one shifted by a
constant (789004800 s = the 9132 days from 2000-01-01 to 2025-01-01), and the
pipeline only ever orders timestamps and takes their differences, both
invariant under the shift.  The shift keeps the kernel-evaluated numerals
small. -/
def civilSeconds (y m d hh mi ss : Nat) : ℚ :=
  let days := 365 * (y - 2000) + (y - 1997) / 4 + monthCum m
      + (if 2 < m ∧ isLeapYear y then 1 else 0) + (d - 1)
  ((86400 * days + 3600 * hh + 60 * mi + ss : ℕ) : ℚ) - 789004800

def parseDateTime (s : String) : Option ℚ :=
  match s.splitOn " " with
  | [ds, ts] =>
    match ds.splitOn "-", ts.splitOn ":" with
    | [ys, ms, dds], [hs, mins, ses] => do
        let y ← parseNatLen ys 4
        let m ← parseNatLen ms 2
        let d ← parseNatLen dds 2
        let hh ← parseNatLen hs 2
        let mi ← parseNatLen mins 2
        let sec ← parseNatLen ses 2
        if 2000 ≤ y ∧ y ≤ 2099 ∧ 1 ≤ m ∧ m ≤ 12 ∧ 1 ≤ d ∧
            d ≤ monthLen (isLeapYear y) m ∧ hh < 24 ∧ mi < 60 ∧ sec < 60 then
          pure (civilSeconds y m d hh mi sec)
        else none
    | _, _ => none
  | _ => none

/-- `str(value)` as pandas' `astype(str)` renders it (`str(nan) = "nan"`; for
floats the decimal rendering round-trips exactly, see `toNumVal`). -/
def asStr : Val → String
  | Val.num q => toString q
  | Val.str s => s
  | Val.na => "nan"

/-! ### `sanitize_bms_csv` (bms_features.py lines 5–36) -/

/-- `pd.date_range("2025-01-01", periods=n, freq="S")` start (0 in this encoding). -/
def epoch2025 : ℚ := civilSeconds 2025 1 1 0 0 0

/-- One-second-cadence datetimes starting at `t`. -/
def synthFrom (t : ℚ) : Nat → Col
  | 0 => []
  | n + 1 => Val.num t :: synthFrom (t + 1) n

/-- `pd.date_range("2025-01-01", periods=n, freq="S")`. -/
def syntheticTs (n : Nat) : Col := synthFrom epoch2025 n

/-- `pd.to_datetime(df["Date"].astype(str) + " " + df["Time"].astype(str), errors="coerce")`. -/
def tsParsed (df : Frame) : Col :=
  let dcol := (colGet df "Date").getD []
  let tcol := (colGet df "Time").getD []
  (List.zip dcol tcol).map (fun p =>
    match parseDateTime (asStr p.1 ++ " " ++ asStr p.2) with
    | some q => Val.num q
    | none => Val.na)

/-- `pd.to_numeric(v, errors="coerce")` on one cell.  On an already-numeric cell
this is the identity (exactly as in pandas); an unparsable string coerces to missing. -/
def toNumVal : Val → Val
  | Val.num q => Val.num q
  | Val.str s => match parseRat s with
      | some q => Val.num q
      | none => Val.na
  | Val.na => Val.na

/-- SOC cleanup on one cell: `astype(str).str.replace("%", "")` then
`pd.to_numeric(..., errors="coerce")`.  `str.replace` removes every `%`.
A numeric cell round-trips exactly through `str(float)`/`float(str)` (pandas
prints floats losslessly), and `str(nan) = "nan"` is unparsable, so numbers are
fixed and missing stays missing. -/
def socCleanVal : Val → Val
  | Val.num q => Val.num q
  | Val.str s => match parseRat (String.mk (s.toList.filter (fun ch => ch ≠ '%'))) with
      | some q => Val.num q
      | none => Val.na
  | Val.na => Val.na

/-- `Series.ffill` with the last seen valid value carried in `acc`. -/
def ffillGo : Option Val → Col → Col
  | _, [] => []
  | acc, v :: rest =>
      if isNa v then (acc.getD Val.na) :: ffillGo acc rest
      else v :: ffillGo (some v) rest

def ffillCol (c : Col) : Col := ffillGo none c

def bfillCol (c : Col) : Col := (ffillGo none c.reverse).reverse

/-- One column of `df.ffill().bfill()`. -/
def fillCol (c : Col) : Col := bfillCol (ffillCol c)

/-- `sanitize_bms_csv` (bms_features.py lines 5–36).  The four steps mirror the
source: timestamp derivation, SOC cleanup, numeric coercion of everything but
`Date`/`Time`/`timestamp` (`Soc` included, a second time), then `ffill().bfill()`.
The `df.copy()` on entry is modelled in `runSanitize` below. -/
def sanitize_bms_csv (df : Frame) : Frame :=
  let df1 :=
    if hasCol df "Date" && hasCol df "Time" then
      let ts := tsParsed df
      -- `ts.notna().sum() > 0`
      if ts.any (fun v => !(isNa v)) then setCol df "timestamp" ts
      else setCol df "timestamp" (syntheticTs (nrowsF df))
    else setCol df "timestamp" (syntheticTs (nrowsF df))
  let df2 :=
    if hasCol df1 "Soc" then
      setCol df1 "Soc" (((colGet df1 "Soc").getD []).map socCleanVal)
    else df1
  let df3 := df2.map (fun p =>
    if p.1 = "Date" ∨ p.1 = "Time" ∨ p.1 = "timestamp" then p
    else (p.1, p.2.map toNumVal))
  df3.map (fun p => (p.1, fillCol p.2))

/-! ### Elementwise float arithmetic on cells (NaN-propagating, as pandas) -/

def vAdd : Val → Val → Val
  | Val.num a, Val.num b => Val.num (a + b)
  | _, _ => Val.na

def vSub : Val → Val → Val
  | Val.num a, Val.num b => Val.num (a - b)
  | _, _ => Val.na

def vMul : Val → Val → Val
  | Val.num a, Val.num b => Val.num (a * b)
  | _, _ => Val.na

/-- Elementwise division.  A zero denominator is modelled as missing (see the
header comment: IEEE gives `NaN` for `0/0`, the only case the health-score
normalisation can reach, and `±inf` otherwise, which no claim exercises). -/
def vDiv : Val → Val → Val
  | Val.num a, Val.num b => if b = 0 then Val.na else Val.num (a / b)
  | _, _ => Val.na

/-- `Series.clip(lo, hi)` on one cell (`clip` leaves `NaN` alone). -/
def vClip (lo hi : ℚ) : Val → Val
  | Val.num q => Val.num (max lo (min hi q))
  | v => v

/-! ### Row-wise reductions over a set of channel columns (`skipna=True`) -/

/-- The numeric values of row `i` across the given columns (pandas row-wise
reductions skip missing entries). -/
def rowValsQ (cols : Frame) (i : Nat) : List ℚ :=
  cols.filterMap (fun p =>
    match p.2.get? i with
    | some (Val.num q) => some q
    | _ => none)

def minQ : List ℚ → Option ℚ
  | [] => none
  | x :: xs => match minQ xs with
      | none => some x
      | some y => some (min x y)

def maxQ : List ℚ → Option ℚ
  | [] => none
  | x :: xs => match maxQ xs with
      | none => some x
      | some y => some (max x y)

def optNum : Option ℚ → Val
  | some q => Val.num q
  | none => Val.na

/-- `df[cols].min(axis=1)` at row `i` (`NaN` when no value survives). -/
def rowMinVal (cols : Frame) (i : Nat) : Val := optNum (minQ (rowValsQ cols i))

/-- `df[cols].max(axis=1)` at row `i`. -/
def rowMaxVal (cols : Frame) (i : Nat) : Val := optNum (maxQ (rowValsQ cols i))

/-- `df[cols].mean(axis=1)` at row `i` (sum of the surviving values over their count). -/
def rowMeanVal (cols : Frame) (i : Nat) : Val :=
  let vs := rowValsQ cols i
  if vs.length = 0 then Val.na else Val.num (vs.sum / (vs.length : ℚ))

/-- `df[cell_cols].idxmin(axis=1)` at row `i`: running first-strict argmin, so the
first column attaining the minimum wins, exactly as pandas ties break. -/
def weakGo (i : Nat) : Option (String × ℚ) → Frame → Option (String × ℚ)
  | acc, [] => acc
  | acc, (nme, vs) :: rest =>
      match vs.get? i with
      | some (Val.num q) =>
          match acc with
          | none => weakGo i (some (nme, q)) rest
          | some (c0, q0) =>
              if q < q0 then weakGo i (some (nme, q)) rest
              else weakGo i (some (c0, q0)) rest
      | _ => weakGo i acc rest

def weakestAt (cols : Frame) (i : Nat) : Val :=
  match weakGo i none cols with
  | some (c, _) => Val.str c
  | none => Val.na

/-- `s.startswith(pre)` (structural form of `String.startsWith`). -/
def strStarts (pre s : String) : Bool := pre.toList.isPrefixOf s.toList

/-- `[c for c in df.columns if c.startswith("Cell")]`, with the columns themselves. -/
def cellColsOf (df : Frame) : Frame := df.filter (fun p => strStarts "Cell" p.1)

/-- `[c for c in df.columns if c.startswith("Temp")]`, with the columns themselves. -/
def tempColsOf (df : Frame) : Frame := df.filter (fun p => strStarts "Temp" p.1)

/-! ### Column-level series operations for the RUL proxy -/

/-- `Series.max()` (column-wise, `skipna=True`; `NaN` on an all-missing column). -/
def colMaxVal (c : Col) : Val :=
  optNum (maxQ (c.filterMap (fun v => match v with | Val.num q => some q | _ => none)))

/-- `Series.diff()`: first entry `NaN`, then pairwise differences. -/
def diffV (xs : Col) : Col :=
  (List.range xs.length).map (fun i =>
    if i = 0 then Val.na
    else
      match xs.get? i, xs.get? (i - 1) with
      | some a, some b => vSub a b
      | _, _ => Val.na)

/-- `Series.rolling(w).mean()`: mean of the trailing `w`-window, `NaN` until the
window is full or whenever it contains a missing value (default
`min_periods = w` counts only valid observations). -/
def rollingMeanV (w : Nat) (xs : Col) : Col :=
  (List.range xs.length).map (fun i =>
    if i + 1 < w then Val.na
    else
      let win := (xs.drop (i + 1 - w)).take w
      if win.all (fun v => !(isNa v)) then
        match (win.filterMap (fun v => match v with | Val.num q => some q | _ => none)) with
        | qs => if qs.length = w then Val.num (qs.sum / (w : ℚ)) else Val.na
      else Val.na)

/-- `Series.mean()` (`skipna=True`; `NaN` on an all-missing series). -/
def meanVal (xs : Col) : Val :=
  let qs := xs.filterMap (fun v => match v with | Val.num q => some q | _ => none)
  if qs.length = 0 then Val.na else Val.num (qs.sum / (qs.length : ℚ))

/-- `degradation = (100 - df["health_score"]).rolling(10).mean().diff()` and
`rate = degradation.replace(0, np.nan).mean()` (bms_features.py lines 84–85).
Note: `replace(0, np.nan)` drops only EXACT zeros; negative differences stay
in the mean. -/
def degRateCode (h : Col) : Val :=
  let degradation := diffV (rollingMeanV 10 (h.map (fun v => vSub (Val.num 100) v)))
  meanVal (degradation.map (fun v => if v = Val.num 0 then Val.na else v))

/-- `df["rul_estimate"]` from the health-score column (bms_features.py lines 84–89):
`(health_score - 60) / rate` when the rate is present and positive, else `NaN`. -/
def rulFromHealth (h : Col) : Col :=
  match degRateCode h with
  | Val.num r =>
      if 0 < r then h.map (fun v => vDiv (vSub v (Val.num 60)) (Val.num r))
      else List.replicate h.length Val.na
  | _ => List.replicate h.length Val.na

/-! ### `engineer_features` (bms_features.py lines 39–91)

The frame is threaded through the column assignments in source order.  Notes:
* `dt`: sanitized frames always carry a datetime `timestamp`, so the
  `is_datetime64_any_dtype` branch taken in the pipeline is the `diff` one;
  `diff` of the first row is missing, `fillna(1)` then `clip(lower=1)`.
* `cell_std` is the one engineered column left out of the model: its values are
  square roots (irrational in general), no later computation or claim reads it,
  and carrying exact square roots would make the frame non-executable.
* The `df.copy()` on entry is modelled in `runEngineer` below. -/

def dtColOf (df : Frame) (n : Nat) : Col :=
  let ts := (colGet df "timestamp").getD []
  (List.range n).map (fun i =>
    match i with
    | 0 => Val.num 1
    | j + 1 =>
        match ts.get? (j + 1), ts.get? j with
        | some (Val.num a), some (Val.num b) => Val.num (max 1 (a - b))
        | _, _ => Val.num 1)

/-- A column by name, defaulting to all-missing (the source would raise
`KeyError` on a genuinely absent column; no claim exercises that). -/
def colOf (df : Frame) (c : String) (n : Nat) : Col :=
  (colGet df c).getD (List.replicate n Val.na)

/-- `Series.abs().cumsum()`: the running sum skips missing entries but reports
them as missing in place. -/
def cumsumAbs : ℚ → Col → Col
  | _, [] => []
  | acc, Val.num q :: rest => Val.num (acc + |q|) :: cumsumAbs (acc + |q|) rest
  | acc, _ :: rest => Val.na :: cumsumAbs acc rest

/-- Lines 42–53: `dt`, `power`, `energy_Wh`, `energy_throughput`. -/
def engEnergy (df : Frame) : Frame :=
  let n := nrowsF df
  let d1 := setCol df "dt" (dtColOf df n)
  let d2 := setCol d1 "power"
    (List.zipWith vMul (colOf d1 "Pack Vol" n) (colOf d1 "Curent" n))
  let d3 := setCol d2 "energy_Wh"
    (List.zipWith (fun p t => vDiv (vMul p t) (Val.num 3600))
      (colOf d2 "power" n) (colOf d2 "dt" n))
  setCol d3 "energy_throughput" (cumsumAbs 0 (colOf d3 "energy_Wh" n))

/-- Lines 55–61: the cell features (`cell_std` excepted, see the section
comment). -/
def engCell (df : Frame) : Frame :=
  let n := nrowsF df
  let cells := cellColsOf df
  let d5 := setCol df "cell_min" ((List.range n).map (fun i => rowMinVal cells i))
  let d6 := setCol d5 "cell_max" ((List.range n).map (fun i => rowMaxVal cells i))
  let d7 := setCol d6 "cell_diff"
    (List.zipWith vSub (colOf d6 "cell_max" n) (colOf d6 "cell_min" n))
  setCol d7 "weakest_cell" ((List.range n).map (fun i => weakestAt cells i))

/-- Lines 63–67: the thermal features. -/
def engThermal (df : Frame) : Frame :=
  let n := nrowsF df
  let temps := tempColsOf df
  let d9 := setCol df "temp_mean" ((List.range n).map (fun i => rowMeanVal temps i))
  let d10 := setCol d9 "temp_max" ((List.range n).map (fun i => rowMaxVal temps i))
  setCol d10 "temp_diff"
    (List.zipWith vSub (colOf d10 "temp_max" n)
      ((List.range n).map (fun i => rowMinVal temps i)))

/-- Lines 69–73: the capacity proxy. -/
def engCapacity (df : Frame) : Frame :=
  let n := nrowsF df
  if hasCol df "Rem. Ah" && hasCol df "Full Cap" then
    setCol df "capacity_ratio"
      (List.zipWith vDiv (colOf df "Rem. Ah" n) (colOf df "Full Cap" n))
  else setCol df "capacity_ratio" (List.replicate n (Val.num 1))

/-- Lines 75–81: the composite health score. -/
def engHealth (df : Frame) : Frame :=
  let n := nrowsF df
  let cd := colOf df "cell_diff" n
  let td := colOf df "temp_diff" n
  let cap := colOf df "capacity_ratio" n
  let cdM := colMaxVal cd
  let tdM := colMaxVal td
  setCol df "health_score"
    ((List.range n).map (fun i =>
      let cdi := (cd.get? i).getD Val.na
      let tdi := (td.get? i).getD Val.na
      let capi := (cap.get? i).getD Val.na
      vClip 0 100
        (vSub
          (vSub
            (vSub (Val.num 100) (vMul (Val.num 35) (vDiv cdi cdM)))
            (vMul (Val.num 35) (vDiv tdi tdM)))
          (vMul (Val.num 30) (vSub (Val.num 1) capi)))))

/-- Lines 83–89: the RUL proxy. -/
def engRul (df : Frame) : Frame :=
  setCol df "rul_estimate" (rulFromHealth (colOf df "health_score" (nrowsF df)))

def engineer_features (df : Frame) : Frame :=
  engRul (engHealth (engCapacity (engThermal (engCell (engEnergy df)))))

/-! ### The Predictive Scorer in `app.py` (Prediction section, lines 161–168) -/

/-- `deg_rate = (100 - df["health_score"]).diff().rolling(10).mean().iloc[-1]`
(app.py line 162).  `iloc[-1]` on an empty series raises in the source; modelled
as missing (no claim exercises an empty frame there). -/
def degRateApp (h : Col) : Val :=
  match (rollingMeanV 10 (diffV (h.map (fun v => vSub (Val.num 100) v)))).getLast? with
  | some v => v
  | none => Val.na

/-- `if pd.isna(deg_rate) or deg_rate <= 0: deg_rate = 0.15` (app.py lines 163–164). -/
def adjDegRate (h : Col) : ℚ :=
  match degRateApp h with
  | Val.num r => if r ≤ 0 then 0.15 else r
  | _ => 0.15

/-- `health = latest["health_score"]; fw = max((health - 55) / deg_rate, 0)`
(app.py lines 166–167), where `latest` is the last row.  Python's
`max(nan, 0)` returns `nan`, hence the missing-health case stays missing. -/
def failureWindow (h : Col) : Val :=
  match h.getLast? with
  | some (Val.num hl) => Val.num (max ((hl - 55) / adjDegRate h) 0)
  | _ => Val.na

/-! ### The claim's wording of the sequence-level degradation estimate (C3)

`degRateSpec`/`rulSpecFromHealth` follow the SPEC'S words — "drops
zero-or-negative noise, and averages what remains" — for comparison against the
source's `degRateCode`/`rulFromHealth` (which drop only exact zeros and keep
negative differences in the mean). -/

def degRateSpec (h : Col) : Val :=
  let degradation := diffV (rollingMeanV 10 (h.map (fun v => vSub (Val.num 100) v)))
  meanVal (degradation.map (fun v =>
    match v with
    | Val.num q => if 0 < q then Val.num q else Val.na
    | _ => Val.na))

def rulSpecFromHealth (h : Col) : Col :=
  match degRateSpec h with
  | Val.num r =>
      if 0 < r then h.map (fun v => vDiv (vSub v (Val.num 60)) (Val.num r))
      else List.replicate h.length Val.na
  | _ => List.replicate h.length Val.na

/-! ### Cause attribution (C8)

Modelled from the spec: the Predictive Scorer's cause-attribution step is
described in the spec's Predictive Scorer section but absent from `src/` (no
`cell_pct`/`temp_pct`/`cap_pct` computation appears in the sources).  Following the spec's
words: three stress factors — current cell spread over the table's maximum cell
spread, current max temperature over the table's maximum temperature, and
(1 − capacity ratio) — normalised into percentages with a tiny epsilon added to
the denominator to avoid division by zero when all factors are exactly zero. -/

def epsAttr : ℚ := 1 / 1000000000

def causeAttribution (cellDiffNow cellDiffMax tempNow tempMax capRatio : ℚ) :
    ℚ × ℚ × ℚ :=
  let f1 := cellDiffNow / cellDiffMax
  let f2 := tempNow / tempMax
  let f3 := 1 - capRatio
  let total := f1 + f2 + f3 + epsAttr
  (100 * f1 / total, 100 * f2 / total, 100 * f3 / total)

/-! ### Timestamp monotonicity predicates (C4/C5) -/

/-- Adjacent-pairs comparison: `true` on a column of nondecreasing datetimes
(every entry a datetime, each at most its successor). -/
def colMonoB : Col → Bool
  | [] => true
  | [Val.num _] => true
  | [_] => false
  | a :: b :: t =>
      (match a, b with
       | Val.num x, Val.num y => decide (x ≤ y)
       | _, _ => false) && colMonoB (b :: t)

/-- Strict version: every entry a datetime, each strictly before its successor. -/
def colMonoStrictB : Col → Bool
  | [] => true
  | [Val.num _] => true
  | [_] => false
  | a :: b :: t =>
      (match a, b with
       | Val.num x, Val.num y => decide (x < y)
       | _, _ => false) && colMonoStrictB (b :: t)

/-! ### The call discipline of the two pipeline functions (C10)

Python passes the DataFrame by reference; both functions begin with
`df = df.copy()` (bms_features.py lines 6 and 40) and every subsequent
`df[...] = ...` mutates that copy.  The heap model makes this explicit: frames
live at addresses (list positions), a call allocates the transformed copy at a
fresh address and returns that address, and the caller's frame is whatever the
final heap still holds at the argument's address. -/

def runSanitize (heap : List Frame) (i : Nat) : List Frame × Nat :=
  (heap ++ [sanitize_bms_csv ((heap.get? i).getD [])], heap.length)

def runEngineer (heap : List Frame) (i : Nat) : List Frame × Nat :=
  (heap ++ [engineer_features ((heap.get? i).getD [])], heap.length)

/-! ### Concrete tables used by the closed theorems -/

/-- C1's failing input: every cell channel equal in every row, every temperature
channel equal in every row (capacity columns absent, so `capacity_ratio = 1`). -/
def exC1 : Frame :=
  [("timestamp", [Val.num epoch2025, Val.num (epoch2025 + 1)]),
   ("Pack Vol", [Val.num 48, Val.num 48]),
   ("Curent", [Val.num 5, Val.num 5]),
   ("Cell1", [Val.num 3500, Val.num 3500]),
   ("Cell2", [Val.num 3500, Val.num 3500]),
   ("Temp1", [Val.num 30, Val.num 30]),
   ("Temp2", [Val.num 30, Val.num 30])]

/-- C3's counterexample input: twelve rows whose health scores give rolling-mean
differences `+1` and `-3` — a positive difference exists, yet their mean is
negative. -/
def exC3 : Frame :=
  [("timestamp", (List.range 12).map (fun i => Val.num (epoch2025 + i))),
   ("Pack Vol", List.replicate 12 (Val.num 48)),
   ("Curent", List.replicate 12 (Val.num 5)),
   ("Cell1", List.replicate 12 (Val.num 0)),
   ("Cell2", [Val.num 0, Val.num 6, Val.num 7, Val.num 0, Val.num 0, Val.num 0,
              Val.num 0, Val.num 0, Val.num 0, Val.num 0, Val.num 2, Val.num 0]),
   ("Temp1", List.replicate 12 (Val.num 0)),
   ("Temp2", List.replicate 12 (Val.num 1))]

/-- C4's counterexample input: both date and time columns present and parsing
per row, but encoding timestamps in decreasing order. -/
def exC4 : Frame :=
  [("Date", [Val.str "2025-01-01", Val.str "2025-01-01"]),
   ("Time", [Val.str "00:01:00", Val.str "00:00:30"]),
   ("Soc", [Val.num 50, Val.num 51])]

/-- C5's counterexample input: a clean table — fully-populated numeric column,
strictly increasing timestamp — whose timestamp does not start at the fixed
epoch. -/
def exC5 : Frame :=
  [("Pack Vol", [Val.num 48, Val.num 47]),
   ("timestamp", [Val.num (epoch2025 + 100), Val.num (epoch2025 + 101)])]

/-- C9's input: a percentage-string SOC and an unparsable SOC. -/
def exC9 : Frame := [("Soc", [Val.str "75%", Val.str "abc"])]

/-- C7's witness input: the weakest cell is the second channel. -/
def exC7 : Frame :=
  [("timestamp", [Val.num epoch2025]),
   ("Pack Vol", [Val.num 48]),
   ("Curent", [Val.num 5]),
   ("Cell1", [Val.num 3500]),
   ("Cell2", [Val.num 3400]),
   ("Cell3", [Val.num 3600]),
   ("Temp1", [Val.num 30])]

/-- C5's witness input: a clean table whose timestamp is exactly the synthetic
epoch sequence — the one clean shape the sanitizer maps to itself. -/
def exC5w : Frame :=
  [("Pack Vol", [Val.num 48, Val.num 47]),
   ("timestamp", [Val.num epoch2025, Val.num (epoch2025 + 1)])]

/-- Every cell of the column is a number (no missing, no text). -/
def allNumCol (c : Col) : Bool :=
  c.all (fun v => match v with | Val.num _ => true | _ => false)

/-- Every column of the frame is fully-populated numeric. -/
def allNumFrame (df : Frame) : Bool := df.all (fun p => allNumCol p.2)

/-! ### Basic frame lemmas -/

theorem colGet_setCol_self (df : Frame) (c : String) (vs : Col) :
    colGet (setCol df c vs) c = some vs := by
  induction df with
  | nil => simp [setCol, colGet]
  | cons p rest ih =>
      obtain ⟨n, old⟩ := p
      by_cases h : n = c
      · subst h; simp [setCol, colGet]
      · simp [setCol, colGet, h, ih]

theorem colGet_setCol_other (df : Frame) (c c' : String) (vs : Col) (h : c ≠ c') :
    colGet (setCol df c vs) c' = colGet df c' := by
  induction df with
  | nil => simp [setCol, colGet, h]
  | cons p rest ih =>
      obtain ⟨n, old⟩ := p
      by_cases hnc : n = c
      · subst hnc; simp [setCol, colGet, h]
      · by_cases hnc' : n = c'
        · subst hnc'; simp [setCol, colGet, hnc]
        · simp [setCol, colGet, hnc, hnc', ih]

theorem colGet_mem (df : Frame) (c : String) (vs : Col) (h : colGet df c = some vs) :
    (c, vs) ∈ df := by
  induction df with
  | nil => simp [colGet] at h
  | cons p rest ih =>
      obtain ⟨n, old⟩ := p
      by_cases hnc : n = c
      · subst hnc
        simp [colGet] at h
        subst h; exact List.mem_cons_self _ _
      · simp only [colGet, if_neg hnc] at h
        exact List.mem_cons_of_mem _ (ih h)

theorem setCol_self (df : Frame) (c : String) (vs : Col) (h : colGet df c = some vs) :
    setCol df c vs = df := by
  induction df with
  | nil => simp [colGet] at h
  | cons p rest ih =>
      obtain ⟨n, old⟩ := p
      by_cases hnc : n = c
      · subst hnc
        simp [colGet] at h
        subst h; simp [setCol]
      · simp only [colGet, if_neg hnc] at h
        simp [setCol, hnc, ih h]

theorem colGet_isSome_of_hasCol (df : Frame) (c : String) (h : hasCol df c = true) :
    ∃ vs, colGet df c = some vs := by
  induction df with
  | nil => simp [hasCol] at h
  | cons p rest ih =>
      obtain ⟨n, old⟩ := p
      by_cases hnc : n = c
      · subst hnc; exact ⟨old, by simp [colGet]⟩
      · simp only [hasCol, if_neg hnc] at h
        obtain ⟨vs, hvs⟩ := ih h
        exact ⟨vs, by simp [colGet, hnc, hvs]⟩

theorem map_self_of {α : Type} (f : α → α) :
    ∀ l : List α, (∀ x ∈ l, f x = x) → l.map f = l := by
  intro l
  induction l with
  | nil => intro _; rfl
  | cons x t ih =>
      intro h
      simp only [List.map_cons, h x (List.mem_cons_self x t)]
      rw [ih (fun y hy => h y (List.mem_cons_of_mem x hy))]

theorem mem_setCol (c : String) (vs : Col) (p : String × Col) :
    ∀ df : Frame, p ∈ setCol df c vs → p ∈ df ∨ p = (c, vs) := by
  intro df
  induction df with
  | nil => intro h; simpa [setCol] using h
  | cons q rest ih =>
      intro h
      obtain ⟨n, old⟩ := q
      by_cases hnc : n = c
      · subst hnc
        simp only [setCol, if_true, eq_self_iff_true, List.mem_cons] at h
        rcases h with h1 | h1
        · exact Or.inr (by simp [h1])
        · exact Or.inl (List.mem_cons_of_mem _ h1)
      · simp only [setCol, if_neg hnc, List.mem_cons] at h
        rcases h with h1 | h1
        · exact Or.inl (by simp [h1])
        · rcases ih h1 with h2 | h2
          · exact Or.inl (List.mem_cons_of_mem _ h2)
          · exact Or.inr h2

/-! ### Fill-policy lemmas -/

theorem ffillGo_of_noNa (c : Col) (h : ∀ v ∈ c, isNa v = false) :
    ∀ acc, ffillGo acc c = c := by
  induction c with
  | nil => intro acc; rfl
  | cons v t ih =>
      intro acc
      have hv := h v (List.mem_cons_self v t)
      simp only [ffillGo, hv, Bool.false_eq_true, if_false]
      rw [ih (fun w hw => h w (List.mem_cons_of_mem v hw))]

theorem fillCol_of_noNa (c : Col) (h : ∀ v ∈ c, isNa v = false) : fillCol c = c := by
  have h1 : ffillCol c = c := ffillGo_of_noNa c h none
  have h2 : ∀ v ∈ c.reverse, isNa v = false := fun v hv => h v (List.mem_reverse.mp hv)
  unfold fillCol bfillCol
  rw [show ffillCol c = c from h1, ffillGo_of_noNa c.reverse h2 none, List.reverse_reverse]

theorem synthFrom_allNum : ∀ (n : Nat) (t : ℚ) (v : Val), v ∈ synthFrom t n → ∃ q, v = Val.num q := by
  intro n
  induction n with
  | zero => intro t v hv; simp [synthFrom] at hv
  | succ m ih =>
      intro t v hv
      simp only [synthFrom, List.mem_cons] at hv
      rcases hv with hv | hv
      · exact ⟨t, hv⟩
      · exact ih (t + 1) v hv

theorem colMonoStrictB_synthFrom_cons :
    ∀ (n : Nat) (t : ℚ), colMonoStrictB (Val.num t :: synthFrom (t + 1) n) = true := by
  intro n
  induction n with
  | zero => intro t; rfl
  | succ m ih =>
      intro t
      show colMonoStrictB (Val.num t :: Val.num (t + 1) :: synthFrom (t + 1 + 1) m) = true
      simp only [colMonoStrictB, Bool.and_eq_true]
      exact ⟨decide_eq_true (lt_add_one t), ih (t + 1)⟩

theorem colMonoStrictB_syntheticTs (n : Nat) : colMonoStrictB (syntheticTs n) = true := by
  cases n with
  | zero => rfl
  | succ m => exact colMonoStrictB_synthFrom_cons m epoch2025

/-! ### Tracing a column through the sanitizer's steps -/

theorem colGet_coerceMap (df : Frame) (c : String) :
    colGet (df.map (fun p =>
        if p.1 = "Date" ∨ p.1 = "Time" ∨ p.1 = "timestamp" then p
        else (p.1, p.2.map toNumVal))) c
      = (colGet df c).map (fun col =>
          if c = "Date" ∨ c = "Time" ∨ c = "timestamp" then col else col.map toNumVal) := by
  induction df with
  | nil => rfl
  | cons p rest ih =>
      obtain ⟨n, col⟩ := p
      by_cases hn : n = "Date" ∨ n = "Time" ∨ n = "timestamp"
      · rw [List.map_cons, if_pos hn]
        by_cases hnc : n = c
        · subst hnc; simp [colGet, hn]
        · simp [colGet, hnc, ih]
      · rw [List.map_cons, if_neg hn]
        by_cases hnc : n = c
        · subst hnc; simp [colGet, hn]
        · simp [colGet, hnc, ih]

theorem colGet_fillMap (df : Frame) (c : String) :
    colGet (df.map (fun p => (p.1, fillCol p.2))) c = (colGet df c).map fillCol := by
  induction df with
  | nil => rfl
  | cons p rest ih =>
      obtain ⟨n, col⟩ := p
      by_cases hnc : n = c
      · subst hnc; simp [colGet]
      · simp [colGet, hnc, ih]

theorem colGet_tail_ts (d1 : Frame) (X : Col) (h : colGet d1 "timestamp" = some X) :
    colGet (((if hasCol d1 "Soc" then
          setCol d1 "Soc" (((colGet d1 "Soc").getD []).map socCleanVal) else d1).map
        (fun p => if p.1 = "Date" ∨ p.1 = "Time" ∨ p.1 = "timestamp" then p
          else (p.1, p.2.map toNumVal))).map
        (fun p => (p.1, fillCol p.2))) "timestamp" = some (fillCol X) := by
  have hts : ("Soc" : String) ≠ "timestamp" := by decide
  by_cases hsoc : hasCol d1 "Soc" = true
  · rw [if_pos hsoc, colGet_fillMap, colGet_coerceMap,
      colGet_setCol_other _ _ _ _ hts, h]
    simp
  · rw [if_neg (by simpa using hsoc), colGet_fillMap, colGet_coerceMap, h]
    simp

theorem sanitize_colGet_ts (df : Frame) :
    colGet (sanitize_bms_csv df) "timestamp" =
      some (fillCol (
        if hasCol df "Date" && hasCol df "Time" then
          (if (tsParsed df).any (fun v => !(isNa v)) then tsParsed df
           else syntheticTs (nrowsF df))
        else syntheticTs (nrowsF df))) := by
  by_cases hA : (hasCol df "Date" && hasCol df "Time") = true
  · by_cases hB : (tsParsed df).any (fun v => !(isNa v)) = true
    · simp only [sanitize_bms_csv, hA, hB, if_true]
      exact colGet_tail_ts _ _ (colGet_setCol_self df "timestamp" _)
    · simp only [sanitize_bms_csv, hA, hB, if_true, Bool.false_eq_true, if_false]
      exact colGet_tail_ts _ _ (colGet_setCol_self df "timestamp" _)
  · simp only [sanitize_bms_csv, hA, Bool.false_eq_true, if_false]
    exact colGet_tail_ts _ _ (colGet_setCol_self df "timestamp" _)

theorem syntheticTs_noNa (n : Nat) : ∀ v ∈ syntheticTs n, isNa v = false := by
  intro v hv
  obtain ⟨q, rfl⟩ := synthFrom_allNum n epoch2025 v hv
  rfl

theorem fillCol_syntheticTs (n : Nat) : fillCol (syntheticTs n) = syntheticTs n :=
  fillCol_of_noNa _ (syntheticTs_noNa n)

theorem allNum_of_allNumFrame (df : Frame) (h : allNumFrame df = true) :
    ∀ p ∈ df, ∀ v ∈ p.2, ∃ q, v = Val.num q := by
  intro p hp v hv
  simp only [allNumFrame, List.all_eq_true] at h
  have hc := h p hp
  simp only [allNumCol, List.all_eq_true] at hc
  have hv' := hc v hv
  cases v with
  | num q => exact ⟨q, rfl⟩
  | str s => simp at hv'
  | na => simp at hv'

theorem noNa_of_allNum (c : Col) (h : ∀ v ∈ c, ∃ q, v = Val.num q) :
    ∀ v ∈ c, isNa v = false := by
  intro v hv
  obtain ⟨q, rfl⟩ := h v hv
  rfl

/-! ### C4: amended timestamp-derivation theorem -/

/-- C4 (amended): the sanitizer's output timestamp column.  When a date and a
time column are both present and at least one row parses, it is the per-row
parse of their concatenation with failed rows filled from neighbouring rows —
not necessarily monotone.  When either column is absent, or parsing fails for
every row, it is the synthesized one-second-cadence sequence starting at the
fixed epoch, which is strictly increasing. -/
theorem c4_timestamp_derivation (df : Frame) :
    ((hasCol df "Date" && hasCol df "Time") = false →
      colGet (sanitize_bms_csv df) "timestamp" = some (syntheticTs (nrowsF df))
        ∧ colMonoStrictB (syntheticTs (nrowsF df)) = true)
  ∧ ((hasCol df "Date" && hasCol df "Time") = true →
      (tsParsed df).any (fun v => !(isNa v)) = false →
      colGet (sanitize_bms_csv df) "timestamp" = some (syntheticTs (nrowsF df))
        ∧ colMonoStrictB (syntheticTs (nrowsF df)) = true)
  ∧ ((hasCol df "Date" && hasCol df "Time") = true →
      (tsParsed df).any (fun v => !(isNa v)) = true →
      colGet (sanitize_bms_csv df) "timestamp" = some (fillCol (tsParsed df))) := by
  refine ⟨fun hA => ?_, fun hA hB => ?_, fun hA hB => ?_⟩
  · rw [sanitize_colGet_ts, hA]
    exact ⟨by simp [fillCol_syntheticTs], colMonoStrictB_syntheticTs _⟩
  · rw [sanitize_colGet_ts, hA, hB]
    exact ⟨by simp [fillCol_syntheticTs], colMonoStrictB_syntheticTs _⟩
  · rw [sanitize_colGet_ts, hA, hB]
    simp

set_option maxRecDepth 200000 in
/-- Witness for `c4_timestamp_derivation`: on `exC9` (no date/time columns) the
sanitizer synthesizes the strictly-increasing epoch sequence. -/
theorem c4_timestamp_derivation_witness :
    colGet (sanitize_bms_csv exC9) "timestamp" = some (syntheticTs (nrowsF exC9))
      ∧ colMonoStrictB (syntheticTs (nrowsF exC9)) = true :=
  (c4_timestamp_derivation exC9).1 (by with_unfolding_all decide)

set_option maxRecDepth 200000 in
/-- C4 (counterexample): on `exC4` the date/time columns parse per row but
encode decreasing instants, so the output timestamp column exists and is not
monotonically increasing — refuting the claim's unconditional monotonicity. -/
theorem c4_counterexample :
    (colGet (sanitize_bms_csv exC4) "timestamp").isSome = true ∧
    colMonoB ((colGet (sanitize_bms_csv exC4) "timestamp").getD []) = false := by
  with_unfolding_all decide

/-! ### C5: sanitization on already-clean input -/

/-- C5 (amended): on a clean table — no date/time text columns, every column
fully-populated numeric, monotone timestamp — the sanitizer changes nothing
except the timestamp column, which it overwrites with the synthetic epoch
sequence; the output equals the input exactly when the timestamp already is
that synthetic sequence. -/
theorem c5_sanitize_clean (df : Frame)
    (hnum : allNumFrame df = true)
    (hdate : hasCol df "Date" = false)
    (htime : hasCol df "Time" = false)
    (hmono : colMonoB ((colGet df "timestamp").getD []) = true) :
    sanitize_bms_csv df = setCol df "timestamp" (syntheticTs (nrowsF df))
    ∧ (colGet df "timestamp" = some (syntheticTs (nrowsF df)) →
        sanitize_bms_csv df = df) := by
  have hA : (hasCol df "Date" && hasCol df "Time") = false := by
    rw [hdate]; rfl
  have hd1num : ∀ p ∈ setCol df "timestamp" (syntheticTs (nrowsF df)),
      ∀ v ∈ p.2, ∃ q, v = Val.num q := by
    intro p hp v hv
    rcases mem_setCol _ _ _ _ hp with h | h
    · exact allNum_of_allNumFrame df hnum p h v hv
    · subst h; exact synthFrom_allNum _ _ v hv
  have hmain : sanitize_bms_csv df = setCol df "timestamp" (syntheticTs (nrowsF df)) := by
    simp only [sanitize_bms_csv, hA, Bool.false_eq_true, if_false]
    set d1 := setCol df "timestamp" (syntheticTs (nrowsF df)) with hd1def
    have hd2 : (if hasCol d1 "Soc" then
        setCol d1 "Soc" (((colGet d1 "Soc").getD []).map socCleanVal) else d1) = d1 := by
      by_cases hsoc : hasCol d1 "Soc" = true
      · rw [if_pos hsoc]
        obtain ⟨socvs, hsv⟩ := colGet_isSome_of_hasCol _ _ hsoc
        rw [hsv]
        have hmapid : socvs.map socCleanVal = socvs := by
          apply map_self_of
          intro v hv
          obtain ⟨q, rfl⟩ := hd1num _ (colGet_mem _ _ _ hsv) v hv
          rfl
        simp only [Option.getD_some, hmapid]
        exact setCol_self _ _ _ hsv
      · rw [if_neg (by simpa using hsoc)]
    rw [hd2]
    have hd3 : d1.map (fun p =>
        if p.1 = "Date" ∨ p.1 = "Time" ∨ p.1 = "timestamp" then p
        else (p.1, p.2.map toNumVal)) = d1 := by
      apply map_self_of
      intro p hp
      by_cases hn : p.1 = "Date" ∨ p.1 = "Time" ∨ p.1 = "timestamp"
      · rw [if_pos hn]
      · rw [if_neg hn]
        have : p.2.map toNumVal = p.2 := by
          apply map_self_of
          intro v hv
          obtain ⟨q, rfl⟩ := hd1num p hp v hv
          rfl
        rw [this]
    rw [hd3]
    have hd4 : d1.map (fun p => (p.1, fillCol p.2)) = d1 := by
      apply map_self_of
      intro p hp
      have : fillCol p.2 = p.2 :=
        fillCol_of_noNa _ (noNa_of_allNum _ (hd1num p hp))
      rw [this]
    rw [hd4]
  refine ⟨hmain, fun hts => ?_⟩
  rw [hmain]
  exact setCol_self _ _ _ hts

set_option maxRecDepth 200000 in
/-- Witness for `c5_sanitize_clean`: a clean two-row table whose timestamp is
already the synthetic epoch sequence is a fixed point of the sanitizer. -/
theorem c5_sanitize_clean_witness : sanitize_bms_csv exC5w = exC5w := by
  have h := (c5_sanitize_clean exC5w (by with_unfolding_all decide)
    (by with_unfolding_all decide) (by with_unfolding_all decide)
    (by with_unfolding_all decide)).2
  exact h (by with_unfolding_all decide)

set_option maxRecDepth 200000 in
/-- C5 (counterexample): `exC5` is clean — fully numeric, strictly increasing
timestamp — yet sanitizing it changes the values (the timestamp is overwritten
with the fixed-epoch synthetic sequence), refuting byte-for-byte idempotence. -/
theorem c5_counterexample :
    allNumFrame exC5 = true ∧
    colMonoStrictB ((colGet exC5 "timestamp").getD []) = true ∧
    sanitize_bms_csv exC5 ≠ exC5 := by
  with_unfolding_all decide

/-! ### C9: SOC percentage-string parsing -/

set_option maxRecDepth 100000 in
/-- C9: a state-of-charge entry `"75%"` parses to the number 75 (the `%` is
stripped first), an unparsable entry `"abc"` becomes missing, and after the
fill policy the missing entry carries the neighbouring row's value; the
sanitizer is a total function, so no exception is possible. -/
theorem c9_soc_parsing :
    socCleanVal (Val.str "75%") = Val.num 75 ∧
    socCleanVal (Val.str "abc") = Val.na ∧
    colGet (sanitize_bms_csv exC9) "Soc" = some [Val.num 75, Val.num 75] := by
  with_unfolding_all decide

/-! ### C1: the bounds invariant and its failure on degenerate input -/

set_option maxRecDepth 1000000 in
/-- C1: on the degenerate input `exC1` — all cell channels equal in every row
and all temperature channels equal in every row — the feature engine produces
`cell_diff = 0 ≥ 0` and `temp_diff = 0 ≥ 0` as claimed, but `health_score` is
missing (NaN) in every row, not in [0, 100]: the spread normalisation divides
0 by the table's maximum spread 0, and `.clip(0, 100)` passes NaN through. -/
theorem c1_bounds_failure :
    colGet (engineer_features exC1) "health_score" = some [Val.na, Val.na] ∧
    colGet (engineer_features exC1) "cell_diff" = some [Val.num 0, Val.num 0] ∧
    colGet (engineer_features exC1) "temp_diff" = some [Val.num 0, Val.num 0] := by
  with_unfolding_all decide

/-! ### C3: the sequence-level degradation estimate -/

set_option maxRecDepth 1000000 in
/-- C3 (counterexample): on `exC3` the differenced rolling means are `+1` and
`-3`.  The source keeps the negative difference and averages to `-1 ≤ 0`, so
`rul_estimate` is missing in every row; the claim's procedure (drop
zero-or-negative differences, average the positive rest) would give the rate
`+1` and a defined estimate — the two disagree. -/
theorem c3_counterexample :
    degRateCode ((colGet (engineer_features exC3) "health_score").getD []) = Val.num (-1) ∧
    degRateSpec ((colGet (engineer_features exC3) "health_score").getD []) = Val.num 1 ∧
    colGet (engineer_features exC3) "rul_estimate" = some (List.replicate 12 Val.na) ∧
    rulSpecFromHealth ((colGet (engineer_features exC3) "health_score").getD [])
      ≠ (colGet (engineer_features exC3) "rul_estimate").getD [] := by
  with_unfolding_all decide

theorem rollingMeanV_short (w : Nat) (xs : Col) (hlen : xs.length < w) :
    ∀ v ∈ rollingMeanV w xs, v = Val.na := by
  intro v hv
  simp only [rollingMeanV, List.mem_map, List.mem_range] at hv
  obtain ⟨i, hi, hveq⟩ := hv
  have hiw : i + 1 < w := Nat.lt_of_le_of_lt (Nat.succ_le_of_lt hi) hlen
  rw [if_pos hiw] at hveq
  exact hveq.symm

theorem diffV_na (xs : Col) (hxs : ∀ u ∈ xs, u = Val.na) :
    ∀ v ∈ diffV xs, v = Val.na := by
  intro v hv
  simp only [diffV, List.mem_map, List.mem_range] at hv
  obtain ⟨i, hi, hveq⟩ := hv
  subst hveq
  by_cases hz : i = 0
  · rw [if_pos hz]
  · rw [if_neg hz]
    rcases hget : xs.get? i with _ | u
    · rfl
    · rcases hget2 : xs.get? (i - 1) with _ | u2
      · rfl
      · have hu : u = Val.na := hxs u (List.get?_mem hget)
        subst hu
        rfl

theorem meanVal_na (xs : Col) (hxs : ∀ v ∈ xs, v = Val.na) : meanVal xs = Val.na := by
  have hnil : xs.filterMap (fun v => match v with | Val.num q => some q | _ => none) = [] := by
    rw [List.filterMap_eq_nil_iff]
    intro v hv
    rw [hxs v hv]
  simp [meanVal, hnil]

theorem degRateCode_short (h : Col) (hlen : h.length < 10) : degRateCode h = Val.na := by
  apply meanVal_na
  intro v hv
  simp only [List.mem_map] at hv
  obtain ⟨u, hu, hveq⟩ := hv
  have hu' : u = Val.na := by
    refine diffV_na _ ?_ u hu
    apply rollingMeanV_short
    simpa using hlen
  subst hu'
  simp at hveq
  exact hveq.symm

set_option maxRecDepth 10000 in
/-- C3 (amended): the feature engine's sequence-level estimate takes the
rolling-10-row mean of (100 − health_score), differences it, drops only EXACT
ZEROS, and averages all remaining differences — negative ones included; the
per-row estimate is `(health_score − 60) / rate`, defined only when that
average is positive (so a positive difference may exist while the estimate
stays missing); with fewer than 10 rows the estimate is missing in every row,
never a default constant. -/
theorem c3_degradation_estimate (h : Col) :
    (h.length < 10 → rulFromHealth h = List.replicate h.length Val.na)
  ∧ (∀ r : ℚ, degRateCode h = Val.num r → r ≤ 0 →
      rulFromHealth h = List.replicate h.length Val.na)
  ∧ (∀ r : ℚ, degRateCode h = Val.num r → 0 < r →
      rulFromHealth h = h.map (fun v => vDiv (vSub v (Val.num 60)) (Val.num r)))
  ∧ degRateCode h =
      meanVal ((diffV (rollingMeanV 10 (h.map (fun v => vSub (Val.num 100) v)))).map
        (fun v => if v = Val.num 0 then Val.na else v)) := by
  refine ⟨fun hlen => ?_, fun r hr hle => ?_, fun r hr hpos => ?_, rfl⟩
  · rw [rulFromHealth, degRateCode_short h hlen]
  · rw [rulFromHealth, hr]
    show (if 0 < r then h.map (fun v => vDiv (vSub v (Val.num 60)) (Val.num r))
        else List.replicate h.length Val.na) = List.replicate h.length Val.na
    rw [if_neg (not_lt.mpr hle)]
  · rw [rulFromHealth, hr]
    show (if 0 < r then h.map (fun v => vDiv (vSub v (Val.num 60)) (Val.num r))
        else List.replicate h.length Val.na)
      = h.map (fun v => vDiv (vSub v (Val.num 60)) (Val.num r))
    rw [if_pos hpos]

/-- Witness for `c3_degradation_estimate`: a single-row table has fewer than 10
rows, so the estimate is missing. -/
theorem c3_degradation_estimate_witness :
    rulFromHealth [Val.num 90] = List.replicate 1 Val.na :=
  (c3_degradation_estimate [Val.num 90]).1 (by decide)

/-! ### C2: the failure-window computation of the Prediction section -/

/-- C2: with the health column's last value present, the scorer's failure
window equals `max((health − 55) / adjusted rate, 0)`; the adjusted rate is
positive, and equals the floor constant 0.15 exactly when the rolling estimate
is missing, zero, or negative; consequently the failure window is never
negative. -/
theorem c2_failure_window (h : Col) (hl : ℚ) (hlast : h.getLast? = some (Val.num hl)) :
    failureWindow h = Val.num (max ((hl - 55) / adjDegRate h) 0)
  ∧ 0 < adjDegRate h
  ∧ ((¬ ∃ r : ℚ, degRateApp h = Val.num r ∧ 0 < r) → adjDegRate h = 0.15)
  ∧ (∀ q : ℚ, failureWindow h = Val.num q → 0 ≤ q) := by
  have hpos : 0 < adjDegRate h := by
    rw [adjDegRate]
    rcases degRateApp h with r | s | _
    · show 0 < (if r ≤ 0 then (0.15 : ℚ) else r)
      by_cases hr : r ≤ 0
      · rw [if_pos hr]; norm_num
      · rw [if_neg hr]; exact lt_of_not_le hr
    · show 0 < (0.15 : ℚ); norm_num
    · show 0 < (0.15 : ℚ); norm_num
  refine ⟨?_, hpos, ?_, ?_⟩
  · rw [failureWindow, hlast]
  · intro hne
    rw [adjDegRate]
    rcases hdr : degRateApp h with r | s | _
    · show (if r ≤ 0 then (0.15 : ℚ) else r) = 0.15
      by_cases hr : r ≤ 0
      · rw [if_pos hr]
      · exact absurd ⟨r, hdr, lt_of_not_le hr⟩ hne
    · rfl
    · rfl
  · intro q hq
    rw [failureWindow, hlast] at hq
    have : max ((hl - 55) / adjDegRate h) 0 = q := by
      simpa using hq
    rw [show q = max ((hl - 55) / adjDegRate h) 0 from this.symm]
    exact le_max_right _ _

/-- Witness for `c2_failure_window` at the one-row health column `[80]`: the
rolling estimate is undefined, the floor 0.15 applies, and the window is
`max(25 / 0.15, 0)`. -/
theorem c2_failure_window_witness :
    failureWindow [Val.num 80]
        = Val.num (max ((80 - 55) / adjDegRate [Val.num 80]) 0)
      ∧ 0 < adjDegRate [Val.num 80]
      ∧ ((¬ ∃ r : ℚ, degRateApp [Val.num 80] = Val.num r ∧ 0 < r) →
          adjDegRate [Val.num 80] = 0.15)
      ∧ (∀ q : ℚ, failureWindow [Val.num 80] = Val.num q → 0 ≤ q) :=
  c2_failure_window [Val.num 80] 80 rfl

/-! ### C6: the fill policy -/

/-- The forward-fill accumulator after a block with no missing values. -/
theorem ffillGo_append_noNa (ws : Col) :
    ∀ (zs : Col) (acc : Option Val), (∀ v ∈ zs, isNa v = false) →
      ffillGo acc (zs ++ ws) = zs ++ ffillGo (zs.getLast?.elim acc some) ws := by
  intro zs
  induction zs with
  | nil => intro acc _; rfl
  | cons u t ih =>
      intro acc hno
      have hu : isNa u = false := hno u (List.mem_cons_self u t)
      simp only [List.cons_append, ffillGo, hu, Bool.false_eq_true, if_false,
        List.append_eq]
      rw [ih (some u) (fun w hw => hno w (List.mem_cons_of_mem u hw))]
      cases t with
      | nil => rfl
      | cons a b =>
          rcases hg : (a :: b).getLast? with _ | w
          · exact absurd hg (by simp)
          · rw [List.getLast?_cons_cons, hg]
            rfl

theorem ffillGo_some_noNa :
    ∀ (xs : Col) (w : Val), isNa w = false → ∀ v ∈ ffillGo (some w) xs, isNa v = false := by
  intro xs
  induction xs with
  | nil => intro w _ v hv; simp [ffillGo] at hv
  | cons u t ih =>
      intro w hw v hv
      cases hu : isNa u with
      | true =>
          simp only [ffillGo, hu, if_true, Option.getD_some, List.mem_cons] at hv
          rcases hv with hv | hv
          · rw [hv]; exact hw
          · exact ih w hw v hv
      | false =>
          simp only [ffillGo, hu, Bool.false_eq_true, if_false, List.mem_cons] at hv
          rcases hv with hv | hv
          · rw [hv]; exact hu
          · exact ih u hu v hv

theorem ffillGo_some_replicate_na (w : Val) :
    ∀ k : Nat, ffillGo (some w) (List.replicate k Val.na) = List.replicate k w := by
  intro k
  induction k with
  | zero => rfl
  | succ m ih => simp [List.replicate_succ, ffillGo, isNa, ih]

theorem ffillGo_none_replicate_append (v : Val) (rest : Col) (hv : isNa v = false) :
    ∀ k : Nat, ffillGo none (List.replicate k Val.na ++ v :: rest)
      = List.replicate k Val.na ++ v :: ffillGo (some v) rest := by
  intro k
  induction k with
  | zero => simp [ffillGo, hv]
  | succ m ih => simp [List.replicate_succ, ffillGo, isNa, ih]

theorem exists_noNa_decompose :
    ∀ xs : Col, (∃ v ∈ xs, isNa v = false) →
      ∃ (k : Nat) (w : Val) (rest : Col),
        xs = List.replicate k Val.na ++ w :: rest ∧ isNa w = false := by
  intro xs
  induction xs with
  | nil => intro h; simp at h
  | cons u t ih =>
      intro h
      by_cases hu : isNa u = true
      · have hu' : u = Val.na := by cases u <;> simp [isNa] at hu ⊢
        obtain ⟨v, hv, hvna⟩ := h
        rcases List.mem_cons.mp hv with hv1 | hv1
        · rw [hv1, hu'] at hvna; simp [isNa] at hvna
        · obtain ⟨k, w, rest, heq, hw⟩ := ih ⟨v, hv1, hvna⟩
          exact ⟨k + 1, w, rest, by rw [hu', heq]; rfl, hw⟩
      · exact ⟨0, u, t, rfl, by simpa using hu⟩

theorem bfillCol_of_noNa (c : Col) (h : ∀ v ∈ c, isNa v = false) : bfillCol c = c := by
  have h2 : ∀ v ∈ c.reverse, isNa v = false := fun v hv => h v (List.mem_reverse.mp hv)
  unfold bfillCol
  rw [ffillGo_of_noNa c.reverse h2 none, List.reverse_reverse]

theorem fill_single_gap (l1 l2 : Col) (h1 : l1 ≠ [])
    (hn1 : ∀ v ∈ l1, isNa v = false) (hn2 : ∀ v ∈ l2, isNa v = false) :
    fillCol (l1 ++ Val.na :: l2) = l1 ++ l1.getLast h1 :: l2 := by
  have hgl : l1.getLast? = some (l1.getLast h1) := List.getLast?_eq_getLast l1 h1
  have hff : ffillCol (l1 ++ Val.na :: l2) = l1 ++ l1.getLast h1 :: l2 := by
    unfold ffillCol
    rw [ffillGo_append_noNa _ l1 none hn1, hgl]
    show l1 ++ ffillGo (some (l1.getLast h1)) (Val.na :: l2) = _
    simp only [ffillGo, isNa, if_true, Option.getD_some]
    rw [ffillGo_of_noNa l2 hn2]
  have hnoNa : ∀ v ∈ l1 ++ l1.getLast h1 :: l2, isNa v = false := by
    intro v hv
    rcases List.mem_append.mp hv with hv1 | hv1
    · exact hn1 v hv1
    · rcases List.mem_cons.mp hv1 with hv2 | hv2
      · rw [hv2]; exact hn1 _ (List.getLast_mem h1)
      · exact hn2 v hv2
  unfold fillCol
  rw [hff, bfillCol_of_noNa _ hnoNa]

theorem fill_no_gap (xs : Col) (hex : ∃ v ∈ xs, isNa v = false) :
    ∀ v ∈ fillCol xs, isNa v = false := by
  obtain ⟨k, w, rest, rfl, hw⟩ := exists_noNa_decompose xs hex
  unfold fillCol ffillCol
  rw [ffillGo_none_replicate_append w rest hw k]
  intro v hv
  unfold bfillCol at hv
  rw [List.mem_reverse] at hv
  have hrev : (List.replicate k Val.na ++ w :: ffillGo (some w) rest).reverse
      = ((ffillGo (some w) rest).reverse ++ [w]) ++ List.replicate k Val.na := by
    simp [List.reverse_append]
  rw [hrev] at hv
  have hzs : ∀ u ∈ (ffillGo (some w) rest).reverse ++ [w], isNa u = false := by
    intro u hu
    rcases List.mem_append.mp hu with hu1 | hu1
    · exact ffillGo_some_noNa rest w hw u (List.mem_reverse.mp hu1)
    · rw [List.mem_singleton.mp hu1]; exact hw
  rw [ffillGo_append_noNa _ _ none hzs, List.getLast?_concat] at hv
  rcases List.mem_append.mp hv with hv1 | hv1
  · exact hzs v hv1
  · show isNa v = false
    have : ffillGo (some w) (List.replicate k Val.na) = List.replicate k w :=
      ffillGo_some_replicate_na w k
    rw [show (Option.elim (some w) none some) = some w from rfl] at hv1
    rw [this] at hv1
    rw [List.eq_of_mem_replicate hv1]
    exact hw

/-- C6: the sanitizer's fill policy is forward fill then backward fill.  First
part: a single interior gap with valid values on both sides is filled with the
nearest PRIOR valid value (the last entry of the block before the gap) —
forward fill takes precedence.  Second part: a column containing at least one
valid value anywhere has no gap left after the fill. -/
theorem c6_fill_policy :
    (∀ (l1 l2 : Col) (h1 : l1 ≠ []),
      (∀ v ∈ l1, isNa v = false) → (∀ v ∈ l2, isNa v = false) → l2 ≠ [] →
      fillCol (l1 ++ Val.na :: l2) = l1 ++ l1.getLast h1 :: l2)
  ∧ (∀ xs : Col, (∃ v ∈ xs, isNa v = false) → ∀ v ∈ fillCol xs, isNa v = false) := by
  exact ⟨fun l1 l2 h1 hn1 hn2 _ => fill_single_gap l1 l2 h1 hn1 hn2, fill_no_gap⟩

/-- Witness for `c6_fill_policy`: the interior gap in `[1, NaN, 2]` is filled
with the prior value 1, and `[NaN, 5]` has no gap after filling. -/
theorem c6_fill_policy_witness :
    fillCol [Val.num 1, Val.na, Val.num 2] = [Val.num 1, Val.num 1, Val.num 2]
    ∧ ∀ v ∈ fillCol [Val.na, Val.num 5], isNa v = false := by
  constructor
  · have h := c6_fill_policy.1 [Val.num 1] [Val.num 2] (by decide)
      (by decide) (by decide) (by decide)
    simpa using h
  · exact c6_fill_policy.2 [Val.na, Val.num 5] ⟨Val.num 5, by decide, rfl⟩

/-! ### C7: the weakest-cell argmin -/

theorem minQ_mem : ∀ (l : List ℚ) (m : ℚ), minQ l = some m → m ∈ l := by
  intro l
  induction l with
  | nil => intro m hm; simp [minQ] at hm
  | cons x xs ih =>
      intro m hm
      rcases hq : minQ xs with _ | y
      · rw [minQ, hq] at hm
        simp at hm
        simp [hm]
      · rw [minQ, hq] at hm
        simp at hm
        rcases le_total x y with hxy | hxy
        · rw [min_eq_left hxy] at hm; simp [hm]
        · rw [min_eq_right hxy] at hm
          exact List.mem_cons_of_mem x (ih m (by rw [hq, hm]))

theorem minQ_le : ∀ (l : List ℚ) (m : ℚ), minQ l = some m → ∀ x ∈ l, m ≤ x := by
  intro l
  induction l with
  | nil => intro m hm; simp [minQ] at hm
  | cons x xs ih =>
      intro m hm y hy
      rcases hq : minQ xs with _ | z
      · rw [minQ, hq] at hm
        simp at hm
        have hxs : xs = [] := by
          cases xs with
          | nil => rfl
          | cons a b =>
              exfalso
              rcases hq2 : minQ b with _ | w <;> simp [minQ, hq2] at hq
        subst hxs
        simp at hy
        rw [hy, hm]
      · rw [minQ, hq] at hm
        simp at hm
        rcases List.mem_cons.mp hy with hy1 | hy1
        · rw [hy1, ← hm]; exact min_le_left _ _
        · calc m = min x z := hm.symm
            _ ≤ z := min_le_right _ _
            _ ≤ y := ih z hq y hy1

theorem minQ_eq_of (l : List ℚ) (m : ℚ) (hmem : m ∈ l) (hle : ∀ x ∈ l, m ≤ x) :
    minQ l = some m := by
  rcases hq : minQ l with _ | y
  · cases l with
    | nil => simp at hmem
    | cons a b => rcases hq2 : minQ b with _ | w <;> simp [minQ, hq2] at hq
  · have h1 : m ≤ y := hle y (minQ_mem l y hq)
    have h2 : y ≤ m := minQ_le l y hq m hmem
    rw [le_antisymm h1 h2]

theorem weakGo_mem (i : Nat) :
    ∀ (cols : Frame) (acc : Option (String × ℚ)) (res : String × ℚ),
      weakGo i acc cols = some res →
      acc = some res ∨ ∃ vs, (res.1, vs) ∈ cols ∧ vs.get? i = some (Val.num res.2) := by
  intro cols
  induction cols with
  | nil => intro acc res h; exact Or.inl h
  | cons p rest ih =>
      intro acc res h
      obtain ⟨nme, vs⟩ := p
      rcases hget : vs.get? i with _ | u
      · rw [weakGo, hget] at h
        rcases ih acc res h with h1 | ⟨ws, hw1, hw2⟩
        · exact Or.inl h1
        · exact Or.inr ⟨ws, List.mem_cons_of_mem _ hw1, hw2⟩
      · cases u with
        | num q =>
            rcases hacc : acc with _ | a
            · rw [weakGo, hget, hacc] at h
              rcases ih (some (nme, q)) res h with h1 | ⟨ws, hw1, hw2⟩
              · refine Or.inr ⟨vs, ?_, ?_⟩
                · have : res = (nme, q) := by injection h1 with h2; exact h2.symm
                  rw [this]; exact List.mem_cons_self _ _
                · have : res = (nme, q) := by injection h1 with h2; exact h2.symm
                  rw [this, hget]
              · exact Or.inr ⟨ws, List.mem_cons_of_mem _ hw1, hw2⟩
            · obtain ⟨c0, q0⟩ := a
              rw [weakGo, hget, hacc] at h
              have h2 : (if q < q0 then weakGo i (some (nme, q)) rest
                  else weakGo i (some (c0, q0)) rest) = some res := h
              by_cases hlt : q < q0
              · rw [if_pos hlt] at h2
                rcases ih (some (nme, q)) res h2 with h1 | ⟨ws, hw1, hw2⟩
                · refine Or.inr ⟨vs, ?_, ?_⟩
                  · have : res = (nme, q) := by injection h1 with h2; exact h2.symm
                    rw [this]; exact List.mem_cons_self _ _
                  · have : res = (nme, q) := by injection h1 with h2; exact h2.symm
                    rw [this, hget]
                · exact Or.inr ⟨ws, List.mem_cons_of_mem _ hw1, hw2⟩
              · rw [if_neg hlt] at h2
                rcases ih (some (c0, q0)) res h2 with h1 | ⟨ws, hw1, hw2⟩
                · exact Or.inl (hacc ▸ h1)
                · exact Or.inr ⟨ws, List.mem_cons_of_mem _ hw1, hw2⟩
        | str s =>
            rw [weakGo, hget] at h
            rcases ih acc res h with h1 | ⟨ws, hw1, hw2⟩
            · exact Or.inl h1
            · exact Or.inr ⟨ws, List.mem_cons_of_mem _ hw1, hw2⟩
        | na =>
            rw [weakGo, hget] at h
            rcases ih acc res h with h1 | ⟨ws, hw1, hw2⟩
            · exact Or.inl h1
            · exact Or.inr ⟨ws, List.mem_cons_of_mem _ hw1, hw2⟩

theorem rowValsQ_cons_num (nme : String) (vs : Col) (rest : Frame) (i : Nat) (q : ℚ)
    (h : vs.get? i = some (Val.num q)) :
    rowValsQ ((nme, vs) :: rest) i = q :: rowValsQ rest i := by
  unfold rowValsQ
  rw [List.filterMap_cons]
  have hf : (match List.get? (nme, vs).2 i with
      | some (Val.num q) => some q
      | _ => none) = some q := by
    rw [show List.get? (nme, vs).2 i = some (Val.num q) from h]
  rw [hf]

theorem rowValsQ_cons_skip (nme : String) (vs : Col) (rest : Frame) (i : Nat)
    (h : (match vs.get? i with
      | some (Val.num q) => some q
      | _ => none) = (none : Option ℚ)) :
    rowValsQ ((nme, vs) :: rest) i = rowValsQ rest i := by
  unfold rowValsQ
  rw [List.filterMap_cons]
  have hf : (match List.get? (nme, vs).2 i with
      | some (Val.num q) => some q
      | _ => none) = (none : Option ℚ) := h
  rw [hf]

theorem mem_rowValsQ_of (cols : Frame) (i : Nat) (c : String) (vs : Col) (q : ℚ)
    (hmem : (c, vs) ∈ cols) (hget : vs.get? i = some (Val.num q)) :
    q ∈ rowValsQ cols i := by
  unfold rowValsQ
  refine List.mem_filterMap.mpr ⟨(c, vs), hmem, ?_⟩
  show (match vs.get? i with
    | some (Val.num q) => some q
    | _ => none) = some q
  rw [hget]

theorem weakGo_le (i : Nat) :
    ∀ (cols : Frame) (acc : Option (String × ℚ)) (res : String × ℚ),
      weakGo i acc cols = some res →
      (∀ x ∈ rowValsQ cols i, res.2 ≤ x) ∧
      (∀ c0 q0, acc = some (c0, q0) → res.2 ≤ q0) := by
  intro cols
  induction cols with
  | nil =>
      intro acc res h
      refine ⟨fun x hx => ?_, fun c0 q0 hacc => ?_⟩
      · simp [rowValsQ] at hx
      · rw [hacc] at h
        injection h with h1
        exact le_of_eq (congrArg Prod.snd h1.symm)
  | cons p rest ih =>
      intro acc res h
      obtain ⟨nme, vs⟩ := p
      rcases hget : vs.get? i with _ | u
      · rw [weakGo, hget] at h
        obtain ⟨hall, hacc⟩ := ih acc res h
        refine ⟨fun x hx => ?_, hacc⟩
        rw [rowValsQ_cons_skip nme vs rest i (by rw [hget])] at hx
        exact hall x hx
      · cases u with
        | num q =>
            have hrow : rowValsQ ((nme, vs) :: rest) i = q :: rowValsQ rest i :=
              rowValsQ_cons_num nme vs rest i q hget
            rcases hacc : acc with _ | a
            · rw [weakGo, hget, hacc] at h
              have h2 : weakGo i (some (nme, q)) rest = some res := h
              obtain ⟨hall, haccle⟩ := ih (some (nme, q)) res h2
              refine ⟨fun x hx => ?_, fun c0 q0 h0 => by simp at h0⟩
              rw [hrow] at hx
              rcases List.mem_cons.mp hx with hx1 | hx1
              · rw [hx1]; exact haccle nme q rfl
              · exact hall x hx1
            · obtain ⟨c0, q0⟩ := a
              rw [weakGo, hget, hacc] at h
              have h2 : (if q < q0 then weakGo i (some (nme, q)) rest
                  else weakGo i (some (c0, q0)) rest) = some res := h
              by_cases hlt : q < q0
              · rw [if_pos hlt] at h2
                obtain ⟨hall, haccle⟩ := ih (some (nme, q)) res h2
                have hq : res.2 ≤ q := haccle nme q rfl
                refine ⟨fun x hx => ?_, fun c1 q1 h1 => ?_⟩
                · rw [hrow] at hx
                  rcases List.mem_cons.mp hx with hx1 | hx1
                  · rw [hx1]; exact hq
                  · exact hall x hx1
                · injection h1 with h1'
                  have he2 : q0 = q1 := congrArg Prod.snd h1'
                  exact he2 ▸ le_trans hq (le_of_lt hlt)
              · rw [if_neg hlt] at h2
                obtain ⟨hall, haccle⟩ := ih (some (c0, q0)) res h2
                have hq0 : res.2 ≤ q0 := haccle c0 q0 rfl
                refine ⟨fun x hx => ?_, fun c1 q1 h1 => ?_⟩
                · rw [hrow] at hx
                  rcases List.mem_cons.mp hx with hx1 | hx1
                  · rw [hx1]; exact le_trans hq0 (le_of_not_lt hlt)
                  · exact hall x hx1
                · injection h1 with h1'
                  have he2 : q0 = q1 := congrArg Prod.snd h1'
                  exact he2 ▸ hq0
        | str s =>
            rw [weakGo, hget] at h
            have h2 : weakGo i acc rest = some res := h
            obtain ⟨hall, hacc⟩ := ih acc res h2
            refine ⟨fun x hx => ?_, hacc⟩
            rw [rowValsQ_cons_skip nme vs rest i (by rw [hget])] at hx
            exact hall x hx
        | na =>
            rw [weakGo, hget] at h
            have h2 : weakGo i acc rest = some res := h
            obtain ⟨hall, hacc⟩ := ih acc res h2
            refine ⟨fun x hx => ?_, hacc⟩
            rw [rowValsQ_cons_skip nme vs rest i (by rw [hget])] at hx
            exact hall x hx

theorem weakestAt_spec (cols : Frame) (i : Nat) (c : String)
    (hw : weakestAt cols i = Val.str c) :
    ∃ q : ℚ, (∃ vs, (c, vs) ∈ cols ∧ vs.get? i = some (Val.num q))
      ∧ rowMinVal cols i = Val.num q := by
  rcases hgo : weakGo i none cols with _ | res
  · rw [weakestAt, hgo] at hw; simp at hw
  · obtain ⟨cw, q⟩ := res
    rw [weakestAt, hgo] at hw
    have hcw : cw = c := by injection hw
    subst hcw
    rcases weakGo_mem i cols none (cw, q) hgo with h1 | ⟨vs, hv1, hv2⟩
    · simp at h1
    · obtain ⟨hall, _⟩ := weakGo_le i cols none (cw, q) hgo
      have hmemrow : q ∈ rowValsQ cols i := mem_rowValsQ_of cols i cw vs q hv1 hv2
      have hmin : minQ (rowValsQ cols i) = some q := minQ_eq_of _ q hmemrow hall
      exact ⟨q, ⟨vs, hv1, hv2⟩, by rw [rowMinVal, hmin]; rfl⟩

theorem colNames_setCol (df : Frame) (c : String) (vs : Col) :
    colNames (setCol df c vs)
      = if hasCol df c = true then colNames df else colNames df ++ [c] := by
  induction df with
  | nil => simp [setCol, hasCol, colNames]
  | cons p rest ih =>
      obtain ⟨n, old⟩ := p
      by_cases hnc : n = c
      · subst hnc; simp [setCol, hasCol, colNames]
      · by_cases hrest : hasCol rest c = true
        · simp [setCol, hasCol, colNames, hnc, hrest] at ih ⊢
          exact ih
        · simp [setCol, hasCol, colNames, hnc, hrest] at ih ⊢
          exact ih

theorem hasCol_iff_mem (df : Frame) (c : String) :
    hasCol df c = true ↔ c ∈ colNames df := by
  induction df with
  | nil => simp [hasCol, colNames]
  | cons p rest ih =>
      obtain ⟨n, old⟩ := p
      by_cases hnc : n = c
      · subst hnc; simp [hasCol, colNames]
      · simp [hasCol, colNames, hnc, ih, Ne.symm hnc]

theorem nodup_setCol (df : Frame) (c : String) (vs : Col)
    (h : (colNames df).Nodup) : (colNames (setCol df c vs)).Nodup := by
  rw [colNames_setCol]
  by_cases hc : hasCol df c = true
  · rw [if_pos hc]; exact h
  · rw [if_neg hc]
    have hnot : c ∉ colNames df := fun hmem => hc ((hasCol_iff_mem df c).mpr hmem)
    simp [List.nodup_append, h, hnot]

theorem colGet_eq_of_mem (df : Frame) (c : String) (vs : Col)
    (hnd : (colNames df).Nodup) (hmem : (c, vs) ∈ df) : colGet df c = some vs := by
  induction df with
  | nil => simp at hmem
  | cons p rest ih =>
      obtain ⟨n, old⟩ := p
      rcases List.mem_cons.mp hmem with h1 | h1
      · obtain ⟨he1, he2⟩ := Prod.mk.injEq c vs n old ▸ h1
        subst he1
        simp [colGet, ← he2]
      · by_cases hnc : n = c
        · subst hnc
          exfalso
          have : n ∈ colNames rest := List.mem_map.mpr ⟨(n, vs), h1, rfl⟩
          simp only [colNames, List.map_cons, List.nodup_cons] at hnd
          exact hnd.1 this
        · simp only [colNames, List.map_cons, List.nodup_cons] at hnd
          simp [colGet, hnc, ih hnd.2 h1]

theorem colGet_cellCols (df : Frame) (c : String) (hc : strStarts "Cell" c = true) :
    colGet (cellColsOf df) c = colGet df c := by
  induction df with
  | nil => rfl
  | cons p rest ih =>
      obtain ⟨n, old⟩ := p
      by_cases hn : strStarts "Cell" n = true
      · rw [cellColsOf, List.filter_cons_of_pos (by simpa using hn)]
        by_cases hnc : n = c
        · subst hnc; simp [colGet]
        · simp only [colGet, if_neg hnc]
          exact ih
      · rw [cellColsOf, List.filter_cons_of_neg (by simpa using hn)]
        by_cases hnc : n = c
        · subst hnc; rw [hc] at hn; simp at hn
        · simp only [colGet, if_neg hnc]
          exact ih

/-! Extraction of the stage-by-stage columns of `engineer_features`. -/

theorem colGet_engEnergy_other (df : Frame) (c : String)
    (h1 : c ≠ "dt") (h2 : c ≠ "power") (h3 : c ≠ "energy_Wh")
    (h4 : c ≠ "energy_throughput") :
    colGet (engEnergy df) c = colGet df c := by
  simp only [engEnergy]
  rw [colGet_setCol_other _ _ _ _ (Ne.symm h4), colGet_setCol_other _ _ _ _ (Ne.symm h3),
    colGet_setCol_other _ _ _ _ (Ne.symm h2), colGet_setCol_other _ _ _ _ (Ne.symm h1)]

theorem colGet_engCell_other (df : Frame) (c : String)
    (h1 : c ≠ "cell_min") (h2 : c ≠ "cell_max") (h3 : c ≠ "cell_diff")
    (h4 : c ≠ "weakest_cell") :
    colGet (engCell df) c = colGet df c := by
  simp only [engCell]
  rw [colGet_setCol_other _ _ _ _ (Ne.symm h4), colGet_setCol_other _ _ _ _ (Ne.symm h3),
    colGet_setCol_other _ _ _ _ (Ne.symm h2), colGet_setCol_other _ _ _ _ (Ne.symm h1)]

theorem colGet_engCell_weakest (df : Frame) :
    colGet (engCell df) "weakest_cell"
      = some ((List.range (nrowsF df)).map (fun i => weakestAt (cellColsOf df) i)) := by
  simp only [engCell]
  rw [colGet_setCol_self]

theorem colGet_engCell_cellmin (df : Frame) :
    colGet (engCell df) "cell_min"
      = some ((List.range (nrowsF df)).map (fun i => rowMinVal (cellColsOf df) i)) := by
  simp only [engCell]
  rw [colGet_setCol_other _ _ _ _ (by decide), colGet_setCol_other _ _ _ _ (by decide),
    colGet_setCol_other _ _ _ _ (by decide), colGet_setCol_self]

theorem colGet_engThermal_other (df : Frame) (c : String)
    (h1 : c ≠ "temp_mean") (h2 : c ≠ "temp_max") (h3 : c ≠ "temp_diff") :
    colGet (engThermal df) c = colGet df c := by
  simp only [engThermal]
  rw [colGet_setCol_other _ _ _ _ (Ne.symm h3), colGet_setCol_other _ _ _ _ (Ne.symm h2),
    colGet_setCol_other _ _ _ _ (Ne.symm h1)]

theorem colGet_engCapacity_other (df : Frame) (c : String)
    (h1 : c ≠ "capacity_ratio") :
    colGet (engCapacity df) c = colGet df c := by
  simp only [engCapacity]
  by_cases hc : (hasCol df "Rem. Ah" && hasCol df "Full Cap") = true
  · rw [if_pos hc, colGet_setCol_other _ _ _ _ (Ne.symm h1)]
  · rw [if_neg hc, colGet_setCol_other _ _ _ _ (Ne.symm h1)]

theorem colGet_engHealth_other (df : Frame) (c : String)
    (h1 : c ≠ "health_score") :
    colGet (engHealth df) c = colGet df c := by
  simp only [engHealth]
  rw [colGet_setCol_other _ _ _ _ (Ne.symm h1)]

theorem colGet_engRul_other (df : Frame) (c : String)
    (h1 : c ≠ "rul_estimate") :
    colGet (engRul df) c = colGet df c := by
  simp only [engRul]
  rw [colGet_setCol_other _ _ _ _ (Ne.symm h1)]

theorem nodup_engEnergy (df : Frame) (h : (colNames df).Nodup) :
    (colNames (engEnergy df)).Nodup := by
  simp only [engEnergy]
  exact nodup_setCol _ _ _ (nodup_setCol _ _ _ (nodup_setCol _ _ _ (nodup_setCol _ _ _ h)))

/-- C7: for any table with distinct column names, whenever the engineered
`weakest_cell` entry of row `i` names a channel `c`, that channel is one of the
discovered `Cell`-prefixed columns, and its value in row `i` equals the row's
`cell_min` — for any number of cell channels. -/
theorem c7_weakest_cell (df : Frame) (i : Nat) (c : String)
    (hnd : (colNames df).Nodup)
    (hw : valAt (engineer_features df) "weakest_cell" i = some (Val.str c)) :
    strStarts "Cell" c = true
    ∧ ∃ q : ℚ, valAt (engineer_features df) c i = some (Val.num q)
        ∧ valAt (engineer_features df) "cell_min" i = some (Val.num q) := by
  have hwcol : colGet (engineer_features df) "weakest_cell"
      = some ((List.range (nrowsF (engEnergy df))).map
          (fun j => weakestAt (cellColsOf (engEnergy df)) j)) := by
    show colGet (engRul (engHealth (engCapacity (engThermal (engCell (engEnergy df))))))
        "weakest_cell" = _
    rw [colGet_engRul_other _ _ (by decide), colGet_engHealth_other _ _ (by decide),
      colGet_engCapacity_other _ _ (by decide),
      colGet_engThermal_other _ _ (by decide) (by decide) (by decide),
      colGet_engCell_weakest]
  rw [valAt, hwcol, Option.some_bind] at hw
  have hi : i < nrowsF (engEnergy df) := by
    by_contra hlt
    rw [List.get?_eq_none.mpr (by simpa using le_of_not_lt hlt)] at hw
    exact Option.noConfusion hw
  rw [List.get?_map, List.get?_range hi] at hw
  have hfi : weakestAt (cellColsOf (engEnergy df)) i = Val.str c := by
    injection hw
  obtain ⟨q, ⟨vs, hvmem, hvget⟩, hmin⟩ :=
    weakestAt_spec (cellColsOf (engEnergy df)) i c hfi
  have hfilter := List.mem_filter.mp hvmem
  have hstart : strStarts "Cell" c = true := by simpa using hfilter.2
  have hne : ∀ s : String, strStarts "Cell" s = false → c ≠ s := by
    intro s hs heq
    rw [← heq, hstart] at hs
    simp at hs
  have hnde : (colNames (engEnergy df)).Nodup := nodup_engEnergy df hnd
  have hcolc : colGet (engEnergy df) c = some vs :=
    colGet_eq_of_mem _ c vs hnde hfilter.1
  have hvalc : colGet (engineer_features df) c = some vs := by
    show colGet (engRul (engHealth (engCapacity (engThermal (engCell (engEnergy df)))))) c = _
    rw [colGet_engRul_other _ _ (hne "rul_estimate" (by decide)),
      colGet_engHealth_other _ _ (hne "health_score" (by decide)),
      colGet_engCapacity_other _ _ (hne "capacity_ratio" (by decide)),
      colGet_engThermal_other _ _ (hne "temp_mean" (by decide))
        (hne "temp_max" (by decide)) (hne "temp_diff" (by decide)),
      colGet_engCell_other _ _ (hne "cell_min" (by decide)) (hne "cell_max" (by decide))
        (hne "cell_diff" (by decide)) (hne "weakest_cell" (by decide)),
      hcolc]
  have hmincol : colGet (engineer_features df) "cell_min"
      = some ((List.range (nrowsF (engEnergy df))).map
          (fun j => rowMinVal (cellColsOf (engEnergy df)) j)) := by
    show colGet (engRul (engHealth (engCapacity (engThermal (engCell (engEnergy df))))))
        "cell_min" = _
    rw [colGet_engRul_other _ _ (by decide), colGet_engHealth_other _ _ (by decide),
      colGet_engCapacity_other _ _ (by decide),
      colGet_engThermal_other _ _ (by decide) (by decide) (by decide),
      colGet_engCell_cellmin]
  refine ⟨hstart, q, ?_, ?_⟩
  · rw [valAt, hvalc, Option.some_bind, hvget]
  · rw [valAt, hmincol, Option.some_bind, List.get?_map, List.get?_range hi]
    show some (rowMinVal (cellColsOf (engEnergy df)) i) = some (Val.num q)
    rw [hmin]

set_option maxRecDepth 200000 in
/-- Witness for `c7_weakest_cell`: in `exC7` the weakest cell of the single row
is `Cell2` (value 3400), and that value is the row's `cell_min`. -/
theorem c7_weakest_cell_witness :
    strStarts "Cell" "Cell2" = true
    ∧ ∃ q : ℚ, valAt (engineer_features exC7) "Cell2" 0 = some (Val.num q)
        ∧ valAt (engineer_features exC7) "cell_min" 0 = some (Val.num q) :=
  c7_weakest_cell exC7 0 "Cell2" (by decide) (by with_unfolding_all decide)

/-! ### C8: cause attribution (spec-modelled, see `causeAttribution`) -/

/-- C8 (counterexample): with stress factors `(10⁻⁹, 0, 0)` — at least one of
them nonzero — the three percentages sum to 50, which is not within `10⁻³` of
100: the epsilon in the denominator makes the sum fall arbitrarily far short
of 100 when the factors are vanishingly small but nonzero. -/
theorem c8_counterexample :
    ((1 : ℚ) / 1000000000) / 1 ≠ 0
    ∧ (causeAttribution (1 / 1000000000) 1 0 1 1).1
        + (causeAttribution (1 / 1000000000) 1 0 1 1).2.1
        + (causeAttribution (1 / 1000000000) 1 0 1 1).2.2 = 50 := by
  constructor
  · norm_num
  · norm_num [causeAttribution, epsAttr]

/-- C8 (amended): the three cause-attribution percentages sum to
`100·S/(S+ε)` where `S` is the stress-factor sum; whenever the factors are
nonnegative and their sum is at least `10⁻³` (not merely nonzero), the sum of
percentages is within `10⁻³` of 100. -/
theorem c8_cause_attribution (cd cdM t tM cap : ℚ)
    (h1 : 0 ≤ cd / cdM) (h2 : 0 ≤ t / tM) (h3 : 0 ≤ 1 - cap)
    (hsum : 1 / 1000 ≤ cd / cdM + t / tM + (1 - cap)) :
    |(causeAttribution cd cdM t tM cap).1 + (causeAttribution cd cdM t tM cap).2.1
      + (causeAttribution cd cdM t tM cap).2.2 - 100| ≤ 1 / 1000 := by
  have heq : epsAttr = 1 / 1000000000 := rfl
  set f1 := cd / cdM with hf1
  set f2 := t / tM with hf2
  set f3 := 1 - cap with hf3
  have hS : (0:ℚ) < f1 + f2 + f3 := lt_of_lt_of_le (by norm_num) hsum
  have htot : (0:ℚ) < f1 + f2 + f3 + epsAttr := by rw [heq]; linarith
  have hp1 : (causeAttribution cd cdM t tM cap).1
      = 100 * f1 / (f1 + f2 + f3 + epsAttr) := rfl
  have hp2 : (causeAttribution cd cdM t tM cap).2.1
      = 100 * f2 / (f1 + f2 + f3 + epsAttr) := rfl
  have hp3 : (causeAttribution cd cdM t tM cap).2.2
      = 100 * f3 / (f1 + f2 + f3 + epsAttr) := rfl
  rw [hp1, hp2, hp3, div_add_div_same, div_add_div_same]
  have hkey : (100 * f1 + 100 * f2 + 100 * f3) / (f1 + f2 + f3 + epsAttr) - 100
      = -(100 * epsAttr / (f1 + f2 + f3 + epsAttr)) := by
    field_simp
    ring
  rw [hkey, abs_neg,
    abs_of_nonneg (div_nonneg (by rw [heq]; norm_num) (le_of_lt htot))]
  rw [div_le_iff htot, heq]
  linarith

/-- Witness for `c8_cause_attribution` at factors `(1/2, 1/2, 0)`: the
percentage sum is within tolerance of 100. -/
theorem c8_cause_attribution_witness :
    |(causeAttribution 1 2 30 60 1).1 + (causeAttribution 1 2 30 60 1).2.1
      + (causeAttribution 1 2 30 60 1).2.2 - 100| ≤ 1 / 1000 :=
  c8_cause_attribution 1 2 30 60 1 (by norm_num) (by norm_num) (by norm_num)
    (by norm_num)

/-! ### C10: the call discipline (both functions copy their argument) -/

/-- C10: in the heap model of the Python call discipline (`df = df.copy()` on
entry, all later column assignments mutate the copy), calling the sanitizer or
the feature engine on the frame at address `i` leaves the caller's frame at
`i` unchanged — every added or coerced column lives only in the returned
frame, which sits at a fresh address. -/
theorem c10_caller_frame (hp : List Frame) (i : Nat) (hi : i < hp.length) :
    (runSanitize hp i).1.get? i = hp.get? i
  ∧ (runEngineer hp i).1.get? i = hp.get? i
  ∧ (runSanitize hp i).2 = hp.length
  ∧ (runEngineer hp i).2 = hp.length := by
  refine ⟨?_, ?_, rfl, rfl⟩
  · show (hp ++ [sanitize_bms_csv ((hp.get? i).getD [])]).get? i = hp.get? i
    exact List.get?_append hi
  · show (hp ++ [engineer_features ((hp.get? i).getD [])]).get? i = hp.get? i
    exact List.get?_append hi

set_option maxRecDepth 100000 in
/-- Witness for `c10_caller_frame`: a one-frame heap holding `exC9`. -/
theorem c10_caller_frame_witness :
    (runSanitize [exC9] 0).1.get? 0 = [exC9].get? 0
  ∧ (runEngineer [exC9] 0).1.get? 0 = [exC9].get? 0
  ∧ (runSanitize [exC9] 0).2 = [exC9].length
  ∧ (runEngineer [exC9] 0).2 = [exC9].length :=
  c10_caller_frame [exC9] 0 (by decide)
